import Mathlib

/-!
Shallow embedding of the `fuid` crate (files `src/base62.rs`, `src/fuid.rs`).

Modelling conventions:
* Rust `u128` values are `Nat`s; every arithmetic operation of the source
  that can overflow is modelled explicitly.  `checked_mul` returns `none`
  exactly when the mathematical product exceeds `u128::MAX`.  The source's
  UNCHECKED operations (`result += z` and `BASE.pow(i)`) wrap modulo `2^128`,
  which is the behaviour of the published (release-profile) build of the
  crate; in a debug build they would abort instead — either way they do not
  produce a `DecodeError`.
* Rust `&str` / `String` values are lists of UTF-8 byte values (`List Nat`);
  `decode` starts from `string.as_bytes()`, so the byte list is exactly the
  data it consumes, and `string.len()` is the byte length.  `strBytes`
  converts a Lean `String` to its UTF-8 bytes so that concrete test vectors
  can be written as string literals.
* `ALPHABET.binary_search(c)` on the sorted, duplicate-free `ALPHABET`
  returns `Ok(v)` exactly when `ALPHABET[v] = c`; it is modelled by
  `List.findIdx?`, which returns the same unique index (sortedness is
  checked by `alphabet_sorted` below).
-/

/-- `u128::MAX + 1`: arithmetic in the source wraps modulo this bound. -/
def U128_LIM : Nat := 2 ^ 128

/-- `const BASE: u128 = 62;` -/
def BASE : Nat := 62

/-- `const ALPHABET: [u8; 62]`: the bytes `'0'..'9'`, `'A'..'Z'`, `'a'..'z'`. -/
def ALPHABET : List Nat :=
  [48, 49, 50, 51, 52, 53, 54, 55, 56, 57,
   65, 66, 67, 68, 69, 70, 71, 72, 73, 74,
   75, 76, 77, 78, 79, 80, 81, 82, 83, 84,
   85, 86, 87, 88, 89, 90, 97, 98, 99, 100,
   101, 102, 103, 104, 105, 106, 107, 108, 109, 110,
   111, 112, 113, 114, 115, 116, 117, 118, 119, 120,
   121, 122]

/-- `enum DecodeError { InvalidBase62Byte(char, usize), ArithmeticOverflow }` -/
inductive DecodeError where
  | InvalidBase62Byte : Char → Nat → DecodeError
  | ArithmeticOverflow : DecodeError
deriving DecidableEq, Repr

/-- `ALPHABET.binary_search(c)`: the index of byte `c` in the sorted
alphabet, if present. -/
def byteVal (c : Nat) : Option Nat := ALPHABET.findIdx? (fun b => b == c)

/-- `BASE.pow(i as u32)`: `62^i`, wrapping modulo `2^128` on overflow
(release-profile semantics of the unchecked `pow`). -/
def u128pow (i : Nat) : Nat := BASE ^ i % U128_LIM

/-- `u128::checked_mul`: `some` of the product when it fits in `u128`,
`none` on overflow. -/
def checked_mul (a b : Nat) : Option Nat :=
  if a * b < U128_LIM then some (a * b) else none

/-- The loop body of `decode`, over the reversed byte list: `i` is the
0-based distance from the end of the string, `len` the total byte length
(used only for the reported error position `len - i`), `result` the running
sum.  `result += z` is unchecked in the source and hence wraps. -/
def decodeLoop (len : Nat) : List Nat → Nat → Nat → Except DecodeError Nat
  | [], _, result => Except.ok result
  | c :: rest, i, result =>
    match byteVal c with
    | some v =>
      match checked_mul v (u128pow i) with
      | some z => decodeLoop len rest (i + 1) ((result + z) % U128_LIM)
      | none => Except.error DecodeError.ArithmeticOverflow
    | none => Except.error (DecodeError.InvalidBase62Byte (Char.ofNat c) (len - i))

/-- `pub fn decode(string: &str) -> Result<u128, DecodeError>`: scan the
UTF-8 bytes right to left, accumulating `v * 62^i`. -/
def decode (s : List Nat) : Except DecodeError Nat :=
  decodeLoop s.length s.reverse 0 0

/-- The `while num > 0` loop of `encode`, pushing `ALPHABET[num % 62]` and
dividing `num` by 62; it yields the digits least-significant first.  The
loop runs at most `num` iterations (each one strictly decreases `num`), so
`encodeAux` carries the initial `num` as explicit fuel; `encodeLoop_eq`
below recovers the fuel-free defining equation. -/
def encodeAux : Nat → Nat → List Nat
  | 0, _ => []
  | fuel + 1, num =>
    if num = 0 then []
    else ALPHABET.getD (num % BASE) 0 :: encodeAux fuel (num / BASE)

def encodeLoop (num : Nat) : List Nat := encodeAux num num

/-- `pub fn encode(num: u128) -> String`: `"0"` for zero, otherwise the
collected digit bytes reversed into most-significant-first order. -/
def encode (num : Nat) : List Nat :=
  if num = 0 then [48]
  else (encodeLoop num).reverse

/-- UTF-8 encoding of one character (the bytes Rust's `str::as_bytes`
exposes for it). -/
def charUtf8 (c : Char) : List Nat :=
  let n := c.toNat
  if n < 128 then [n]
  else if n < 2048 then [192 + n / 64, 128 + n % 64]
  else if n < 65536 then [224 + n / 4096, 128 + n / 64 % 64, 128 + n % 64]
  else [240 + n / 262144, 128 + n / 4096 % 64, 128 + n / 64 % 64, 128 + n % 64]

/-- The UTF-8 bytes of a string, i.e. Rust's `string.as_bytes()`. -/
def strBytes (s : String) : List Nat := (s.data.map charUtf8).flatten

/-- The exact (unbounded) numeric value a string over the alphabet stands
for: most-significant symbol first, base 62.  Only meaningful when every
byte is an alphabet symbol; used to state what "the implied value" of an
input is, independently of the decoder's bounded arithmetic. -/
def impliedVal (s : List Nat) : Nat :=
  s.foldl (fun acc c => acc * BASE + (byteVal c).getD BASE) 0

/-- `uuid::Uuid`, abstracted to its 128-bit payload: the crate only ever
touches a `Uuid` through `Uuid::from_u128` / `Uuid::as_u128`, which are
mutually inverse bit-for-bit reinterpretations. -/
structure Uuid where
  val : Nat
deriving DecidableEq

def Uuid.from_u128 (n : Nat) : Uuid := ⟨n⟩

def Uuid.as_u128 (u : Uuid) : Nat := u.val

/-- `pub struct Fuid(u128);` -/
structure Fuid where
  val : Nat
deriving DecidableEq

/-- `Fuid::with_u128` (also `From<u128> for Fuid`). -/
def Fuid.with_u128 (i : Nat) : Fuid := ⟨i⟩

/-- `Fuid::as_u128` (also `From<Fuid> for u128`). -/
def Fuid.as_u128 (f : Fuid) : Nat := f.val

/-- `Fuid::with_str`: delegate to `base62::decode`, wrapping the value and
propagating the error unchanged.  `FromStr for Fuid` is the same function. -/
def Fuid.with_str (s : List Nat) : Except DecodeError Fuid :=
  match decode s with
  | Except.ok n => Except.ok ⟨n⟩
  | Except.error e => Except.error e

/-- `From<&str> for Fuid` / `From<String> for Fuid` (the path the `fuid!`
macro expands to): `Fuid::from_str(val).unwrap()`.  `unwrap` panics on
`Err`; the panic is modelled as `none`. -/
def Fuid.fromStrUnwrap (s : List Nat) : Option Fuid :=
  match Fuid.with_str s with
  | Except.ok f => some f
  | Except.error _ => none

/-- `From<Uuid> for Fuid`: `u.as_u128().into()`. -/
def Fuid.fromUuid (u : Uuid) : Fuid := Fuid.with_u128 u.as_u128

/-- `From<Fuid> for Uuid`: `Uuid::from_u128(f.as_u128())`. -/
def Fuid.toUuid (f : Fuid) : Uuid := Uuid.from_u128 f.as_u128

deriving instance DecidableEq for Except

/-- Sanity: the alphabet is strictly sorted (and so duplicate-free), which
is what makes `binary_search` ≙ `findIdx?` correct. -/
theorem alphabet_sorted : ∀ i < 61, ALPHABET.getD i 0 < ALPHABET.getD (i + 1) 0 := by
  decide

example : decode (strBytes "") = Except.ok 0 := by decide
example : decode (strBytes "0") = Except.ok 0 := by decide
example : encode 0 = strBytes "0" := by decide
example : decode (strBytes "F0ob4rZ") = Except.ok 852751187393 := by decide
example : encode 852751187393 = strBytes "F0ob4rZ" := by decide
example : decode (strBytes "ds\x7bZ455f") =
    Except.error (DecodeError.InvalidBase62Byte (Char.ofNat 123) 3) := by decide

theorem encodeAux_zero (fuel : Nat) : encodeAux fuel 0 = [] := by
  cases fuel <;> rfl

theorem encodeAux_fuel :
    ∀ f g n : Nat, n ≤ f → n ≤ g → encodeAux f n = encodeAux g n := by
  intro f
  induction f with
  | zero =>
    intro g n hf _
    have hn : n = 0 := Nat.le_zero.mp hf
    subst hn
    rw [encodeAux_zero, encodeAux_zero]
  | succ f ih =>
    intro g n hf hg
    cases n with
    | zero => rw [encodeAux_zero, encodeAux_zero]
    | succ m =>
      cases g with
      | zero => omega
      | succ g =>
        have hdiv : (m + 1) / BASE < m + 1 :=
          Nat.div_lt_self (Nat.succ_pos m) (by norm_num [BASE])
        simp only [encodeAux, if_neg (Nat.succ_ne_zero m)]
        rw [ih g ((m + 1) / BASE) (by omega) (by omega)]

/-- The defining (fuel-free) equation of the `while num > 0` loop. -/
theorem encodeLoop_eq (num : Nat) :
    encodeLoop num = if num = 0 then []
      else ALPHABET.getD (num % BASE) 0 :: encodeLoop (num / BASE) := by
  cases num with
  | zero => rfl
  | succ m =>
    rw [if_neg (Nat.succ_ne_zero m)]
    have hdiv : (m + 1) / BASE < m + 1 :=
      Nat.div_lt_self (Nat.succ_pos m) (by norm_num [BASE])
    show encodeAux (m + 1) (m + 1) = _
    simp only [encodeAux, if_neg (Nat.succ_ne_zero m)]
    rw [encodeAux_fuel m ((m + 1) / BASE) ((m + 1) / BASE) (by omega) le_rfl]
    rfl

theorem byteVal_getD : ∀ d < 62, byteVal (ALPHABET.getD d 0) = some d := by decide

theorem getD_mem_alphabet : ∀ d < 62, ALPHABET.getD d 0 ∈ ALPHABET := by decide

theorem getD_ne_zero_byte : ∀ d < 62, 0 < d → ALPHABET.getD d 0 ≠ 48 := by decide

theorem byteVal_48 : byteVal 48 = some 0 := rfl

theorem checked_mul_zero (b : Nat) : checked_mul 0 b = some 0 := by
  simp [checked_mul, U128_LIM]

/-- Decoding the digit list produced by the encode loop recovers the
number: the generic invariant over the running sum. -/
theorem decodeLoop_encodeLoop (n : Nat) :
    ∀ i acc len : Nat, acc + n * BASE ^ i < U128_LIM →
      decodeLoop len (encodeLoop n) i acc = Except.ok (acc + n * BASE ^ i) := by
  induction n using Nat.strong_induction_on with
  | _ n ih =>
    intro i acc len hbound
    rcases Nat.eq_zero_or_pos n with h0 | hpos
    · subst h0
      rw [encodeLoop_eq]
      simp [decodeLoop]
    · have hne : n ≠ 0 := Nat.pos_iff_ne_zero.mp hpos
      rw [encodeLoop_eq, if_neg hne]
      have hpowlt : BASE ^ i < U128_LIM :=
        lt_of_le_of_lt
          (le_trans (Nat.le_mul_of_pos_left _ hpos) (Nat.le_add_left _ _)) hbound
      have hmod : n % BASE < 62 := Nat.mod_lt n (by norm_num [BASE])
      have hmul : n % BASE * BASE ^ i < U128_LIM :=
        lt_of_le_of_lt
          (le_trans (Nat.mul_le_mul_right _ (Nat.mod_le n BASE)) (Nat.le_add_left _ _))
          hbound
      have hpow : u128pow i = BASE ^ i := Nat.mod_eq_of_lt hpowlt
      have hcm : checked_mul (n % BASE) (u128pow i) = some (n % BASE * BASE ^ i) := by
        rw [hpow, checked_mul, if_pos hmul]
      have haccnew : acc + n % BASE * BASE ^ i < U128_LIM :=
        lt_of_le_of_lt (by nlinarith [Nat.mod_le n BASE, Nat.pos_pow_of_pos i (show 0 < BASE by norm_num [BASE])]) hbound
      have key : acc + n % BASE * BASE ^ i + n / BASE * BASE ^ (i + 1)
          = acc + n * BASE ^ i := by
        have h := Nat.mod_add_div' n BASE
        rw [pow_succ]
        nlinarith [h]
      simp only [decodeLoop, byteVal_getD (n % BASE) hmod, hcm]
      rw [Nat.mod_eq_of_lt haccnew]
      have hrec := ih (n / BASE) (Nat.div_lt_self hpos (by norm_num [BASE]))
        (i + 1) (acc + n % BASE * BASE ^ i) len (by rw [key]; exact hbound)
      rw [hrec, key]

theorem encodeLoop_length (n : Nat) :
    ∀ k : Nat, n < BASE ^ k → (encodeLoop n).length ≤ k := by
  induction n using Nat.strong_induction_on with
  | _ n ih =>
    intro k hk
    rcases Nat.eq_zero_or_pos n with h0 | hpos
    · subst h0
      simp [encodeLoop, encodeAux_zero]
    · have hne : n ≠ 0 := Nat.pos_iff_ne_zero.mp hpos
      rw [encodeLoop_eq, if_neg hne]
      cases k with
      | zero => simp [pow_zero] at hk; omega
      | succ k =>
        have hdivlt : n / BASE < BASE ^ k := by
          rw [Nat.div_lt_iff_lt_mul (show 0 < BASE by norm_num [BASE])]
          calc n < BASE ^ (k + 1) := hk
          _ = BASE ^ k * BASE := by rw [pow_succ]
        have := ih (n / BASE) (Nat.div_lt_self hpos (by norm_num [BASE])) k hdivlt
        simp only [List.length_cons]
        omega

theorem encodeLoop_ne_nil (n : Nat) (h : n ≠ 0) : encodeLoop n ≠ [] := by
  rw [encodeLoop_eq, if_neg h]
  exact List.cons_ne_nil _ _

theorem encodeLoop_mem (n : Nat) :
    ∀ b ∈ encodeLoop n, b ∈ ALPHABET := by
  induction n using Nat.strong_induction_on with
  | _ n ih =>
    intro b hb
    rcases Nat.eq_zero_or_pos n with h0 | hpos
    · subst h0
      simp [encodeLoop, encodeAux_zero] at hb
    · have hne : n ≠ 0 := Nat.pos_iff_ne_zero.mp hpos
      rw [encodeLoop_eq, if_neg hne] at hb
      rcases List.mem_cons.mp hb with h | h
      · subst h
        exact getD_mem_alphabet (n % BASE) (Nat.mod_lt n (by norm_num [BASE]))
      · exact ih (n / BASE) (Nat.div_lt_self hpos (by norm_num [BASE])) b h

theorem getLast?_cons_ne_nil (x : Nat) (tl : List Nat) (h : tl ≠ []) :
    (x :: tl).getLast? = tl.getLast? := by
  cases tl with
  | nil => exact absurd rfl h
  | cons y ys => exact List.getLast?_cons_cons

theorem encodeLoop_getLast (n : Nat) :
    n ≠ 0 → ∃ b, (encodeLoop n).getLast? = some b ∧ b ≠ 48 := by
  induction n using Nat.strong_induction_on with
  | _ n ih =>
    intro hne
    have hpos : 0 < n := Nat.pos_of_ne_zero hne
    rw [encodeLoop_eq, if_neg hne]
    rcases Nat.lt_or_ge n BASE with hlt | hge
    · have hdiv : n / BASE = 0 := Nat.div_eq_of_lt hlt
      have hmod : n % BASE = n := Nat.mod_eq_of_lt hlt
      rw [hdiv, hmod]
      refine ⟨ALPHABET.getD n 0, ?_, getD_ne_zero_byte n hlt hpos⟩
      rw [show encodeLoop 0 = [] from rfl]
      rfl
    · have hdivpos : n / BASE ≠ 0 := by
        have : 1 ≤ n / BASE := (Nat.one_le_div_iff (show 0 < BASE by norm_num [BASE])).mpr hge
        omega
      obtain ⟨b, hlast, hb⟩ := ih (n / BASE) (Nat.div_lt_self hpos (by norm_num [BASE])) hdivpos
      exact ⟨b, by rw [getLast?_cons_ne_nil _ _ (encodeLoop_ne_nil _ hdivpos)]; exact hlast, hb⟩

theorem decodeLoop_cons_invalid (len c : Nat) (rest : List Nat) (i acc : Nat)
    (h : byteVal c = none) :
    decodeLoop len (c :: rest) i acc =
      Except.error (DecodeError.InvalidBase62Byte (Char.ofNat c) (len - i)) := by
  simp only [decodeLoop, h]

theorem decodeLoop_cons_valid (len c v : Nat) (rest : List Nat) (i acc z : Nat)
    (h : byteVal c = some v) (hz : checked_mul v (u128pow i) = some z) :
    decodeLoop len (c :: rest) i acc =
      decodeLoop len rest (i + 1) ((acc + z) % U128_LIM) := by
  simp only [decodeLoop, h, hz]

theorem decodeLoop_cons_mulover (len c v : Nat) (rest : List Nat) (i acc : Nat)
    (h : byteVal c = some v) (hz : checked_mul v (u128pow i) = none) :
    decodeLoop len (c :: rest) i acc = Except.error DecodeError.ArithmeticOverflow := by
  simp only [decodeLoop, h, hz]

/-- Appending a `'0'` byte (one extra, leftmost zero symbol) to the scanned
list does not change a successful decode: the zero digit contributes
`0 × 62^i = 0`. -/
theorem decodeLoop_append_48 :
    ∀ (l : List Nat) (i acc len lenB r : Nat), acc < U128_LIM →
      decodeLoop len l i acc = Except.ok r →
      decodeLoop lenB (l ++ [48]) i acc = Except.ok r := by
  intro l
  induction l with
  | nil =>
    intro i acc len lenB r hacc h
    simp only [decodeLoop] at h
    injection h with h
    subst h
    simp only [List.nil_append, decodeLoop, byteVal_48, checked_mul_zero]
    rw [Nat.add_zero, Nat.mod_eq_of_lt hacc]
  | cons c cs ih =>
    intro i acc len lenB r hacc h
    rw [List.cons_append]
    cases hbv : byteVal c with
    | none =>
      rw [decodeLoop_cons_invalid len c cs i acc hbv] at h
      cases h
    | some v =>
      cases hcm : checked_mul v (u128pow i) with
      | none =>
        rw [decodeLoop_cons_mulover len c v cs i acc hbv hcm] at h
        cases h
      | some z =>
        rw [decodeLoop_cons_valid len c v cs i acc z hbv hcm] at h
        rw [decodeLoop_cons_valid lenB c v (cs ++ [48]) i acc z hbv hcm]
        exact ih (i + 1) _ len lenB r
          (Nat.mod_lt _ (by norm_num [U128_LIM])) h

/-- If every byte scanned before position `i` (distance from the end) is a
valid symbol whose multiplication fits, and the byte at `i` is invalid,
the loop reports that byte at position `len - i`. -/
theorem decodeLoop_invalid :
    ∀ (pre : List Nat) (c : Nat) (rest : List Nat) (i acc len : Nat),
      byteVal c = none →
      (∀ j, j < pre.length →
        (byteVal (pre.getD j 0)).isSome ∧
        (byteVal (pre.getD j 0)).getD 0 * u128pow (i + j) < U128_LIM) →
      decodeLoop len (pre ++ c :: rest) i acc =
        Except.error (DecodeError.InvalidBase62Byte (Char.ofNat c) (len - (i + pre.length))) := by
  intro pre
  induction pre with
  | nil =>
    intro c rest i acc len hc _
    simp only [List.nil_append, decodeLoop, hc, List.length_nil, Nat.add_zero]
  | cons p ps ih =>
    intro c rest i acc len hc hpre
    have h0 := hpre 0 (Nat.succ_pos _)
    simp only [List.getD_cons_zero, Nat.add_zero] at h0
    rw [List.cons_append]
    cases hbv : byteVal p with
    | none =>
      rw [hbv] at h0
      simp at h0
    | some v =>
      rw [hbv] at h0
      simp only [Option.getD_some] at h0
      have hcm : checked_mul v (u128pow i) = some (v * u128pow i) := by
        rw [checked_mul, if_pos h0.2]
      rw [decodeLoop_cons_valid len p v (ps ++ c :: rest) i acc _ hbv hcm]
      have hshift : ∀ j, j < ps.length →
          (byteVal (ps.getD j 0)).isSome ∧
          (byteVal (ps.getD j 0)).getD 0 * u128pow (i + 1 + j) < U128_LIM := by
        intro j hj
        have hmem := hpre (j + 1) (by simpa using Nat.succ_lt_succ hj)
        rw [List.getD_cons_succ] at hmem
        have harith : i + (j + 1) = i + 1 + j := by omega
        rw [harith] at hmem
        exact hmem
      have hrec := ih c rest (i + 1) ((acc + v * u128pow i) % U128_LIM) len hc hshift
      rw [hrec]
      have harith2 : i + 1 + ps.length = i + (p :: ps).length := by
        simp only [List.length_cons]
        omega
      rw [harith2]

/-- Claim C1: for every 128-bit unsigned integer `n`, decoding the string
produced by encoding `n` returns `n` without error: `decode (encode n) = Ok n`. -/
theorem claim_c1_roundtrip (n : Nat) (h : n < U128_LIM) :
    decode (encode n) = Except.ok n := by
  rcases Nat.eq_zero_or_pos n with h0 | hpos
  · subst h0
    decide
  · have hne : n ≠ 0 := Nat.pos_iff_ne_zero.mp hpos
    rw [encode, if_neg hne, decode, List.reverse_reverse]
    have hb : (0 : Nat) + n * BASE ^ 0 < U128_LIM := by simpa using h
    have := decodeLoop_encodeLoop n 0 0 (encodeLoop n).reverse.length hb
    simpa using this

theorem claim_c1_roundtrip_witness :
    852751187393 < U128_LIM ∧ decode (encode 852751187393) = Except.ok 852751187393 :=
  ⟨by decide, claim_c1_roundtrip 852751187393 (by decide)⟩

/-- Claim C2 (what the evaluation shows): contrary to the claimed
equivalence, `decode` can SUCCEED on a string made only of alphabet symbols
whose implied value does not fit in 128 bits: on `"1"` followed by 22
`"0"`s the unchecked `BASE.pow(22)` wraps modulo `2^128` (release-profile
semantics; a debug build would abort) and `decode` returns `Ok` of the
wrapped power instead of failing. -/
theorem claim_c2_pow_wrap_eval :
    (∀ b ∈ strBytes "10000000000000000000000", b ∈ ALPHABET) ∧
    U128_LIM ≤ impliedVal (strBytes "10000000000000000000000") ∧
    decode (strBytes "10000000000000000000000") =
      Except.ok (BASE ^ 22 % U128_LIM) ∧
    BASE ^ 22 % U128_LIM ≠ impliedVal (strBytes "10000000000000000000000") := by
  decide

/-- Claim C3 (what the evaluation shows): contrary to the claim, an
overflow of the running-sum accumulation does NOT produce
`ArithmeticOverflow`: on `"7"` followed by 21 `"z"`s every
`checked_mul` succeeds, but the final unchecked `result += z` exceeds
`u128::MAX` and wraps modulo `2^128` (release-profile semantics; a debug
build would abort), so `decode` returns `Ok` of a wrong, wrapped value. -/
theorem claim_c3_sum_wrap_eval :
    (∀ b ∈ strBytes "7zzzzzzzzzzzzzzzzzzzzz", b ∈ ALPHABET) ∧
    impliedVal (strBytes "7zzzzzzzzzzzzzzzzzzzzz") = 8 * BASE ^ 21 - 1 ∧
    U128_LIM ≤ 8 * BASE ^ 21 - 1 ∧
    decode (strBytes "7zzzzzzzzzzzzzzzzzzzzz") =
      Except.ok ((8 * BASE ^ 21 - 1) % U128_LIM) ∧
    (8 * BASE ^ 21 - 1) % U128_LIM ≠ 8 * BASE ^ 21 - 1 := by
  decide

/-- Claim C4: if every byte at distance `j < i` from the end of the string
is an alphabet symbol whose multiplication fits (i.e. no earlier failure in
the right-to-left scan) and the byte at distance `i` is not an alphabet
symbol, `decode` fails with `InvalidBase62Byte` carrying that byte cast to
a char and the 1-based position `len − i` counted from the start. -/
theorem claim_c4_invalid_symbol (s pre rest : List Nat) (c : Nat)
    (hsplit : s.reverse = pre ++ c :: rest)
    (hc : byteVal c = none)
    (hpre : ∀ j, j < pre.length →
      (byteVal (pre.getD j 0)).isSome ∧
      (byteVal (pre.getD j 0)).getD 0 * u128pow j < U128_LIM) :
    decode s = Except.error
      (DecodeError.InvalidBase62Byte (Char.ofNat c) (s.length - pre.length)) := by
  rw [decode, hsplit]
  have := decodeLoop_invalid pre c rest 0 0 s.length hc (by simpa using hpre)
  simpa using this

theorem claim_c4_invalid_symbol_witness :
    decode (strBytes "ds\x7bZ455f") =
      Except.error (DecodeError.InvalidBase62Byte (Char.ofNat 123) 3) := by
  have h := claim_c4_invalid_symbol (strBytes "ds\x7bZ455f")
    [102, 53, 53, 52, 90] [115, 100] 123 (by decide) (by decide) (by decide)
  have h2 : (strBytes "ds\x7bZ455f").length - ([102, 53, 53, 52, 90] : List Nat).length = 3 := by
    decide
  rw [h2] at h
  exact h

/-- Claim C5: `encode 0` is exactly the one-character string `"0"`;
`decode "0" = Ok 0`; and `decode "" = Ok 0`, so the empty string and `"0"`
both decode to zero even though they are different strings. -/
theorem claim_c5_zero_forms :
    encode 0 = strBytes "0" ∧
    decode (strBytes "0") = Except.ok 0 ∧
    decode (strBytes "") = Except.ok 0 ∧
    strBytes "" ≠ strBytes "0" := by
  decide

/-- Claim C6: for every 128-bit `n`, `encode n` is a non-empty string of at
most 22 alphabet symbols, and for `n > 0` it does not start with the
symbol `'0'` (byte 48). -/
theorem claim_c6_encode_shape (n : Nat) (h : n < U128_LIM) :
    encode n ≠ [] ∧ (encode n).length ≤ 22 ∧
    (∀ b ∈ encode n, b ∈ ALPHABET) ∧
    (0 < n → (encode n).head? ≠ some 48) := by
  rcases Nat.eq_zero_or_pos n with h0 | hpos
  · subst h0
    exact ⟨by decide, by decide, by decide, by omega⟩
  · have hne : n ≠ 0 := Nat.pos_iff_ne_zero.mp hpos
    rw [encode, if_neg hne]
    have hlt : n < BASE ^ 22 := lt_trans h (by decide)
    have hlen : (encodeLoop n).length ≤ 22 := encodeLoop_length n 22 hlt
    obtain ⟨b, hlast, hb48⟩ := encodeLoop_getLast n hne
    refine ⟨?_, ?_, ?_, ?_⟩
    · rw [ne_eq, List.reverse_eq_nil_iff]
      exact encodeLoop_ne_nil n hne
    · rw [List.length_reverse]
      exact hlen
    · intro x hx
      exact encodeLoop_mem n x (List.mem_reverse.mp hx)
    · intro _
      rw [List.head?_reverse, hlast]
      intro hcontra
      injection hcontra with hcontra
      exact hb48 hcontra

theorem claim_c6_encode_shape_witness :
    852751187393 < U128_LIM ∧
    (encode 852751187393 ≠ [] ∧ (encode 852751187393).length ≤ 22 ∧
     (∀ b ∈ encode 852751187393, b ∈ ALPHABET) ∧
     (0 < 852751187393 → (encode 852751187393).head? ≠ some 48)) :=
  ⟨by decide, claim_c6_encode_shape 852751187393 (by decide)⟩

/-- Claim C7: the integer and UUID conversions are total and mutually
inverse: converting a UUID to a `Fuid` and back yields it unchanged, and
rebuilding a `Fuid` from its wrapped 128-bit integer yields the same
identifier — no transformation of the payload in either direction. -/
theorem claim_c7_uuid_int_roundtrip (u : Uuid) (f : Fuid) :
    Fuid.toUuid (Fuid.fromUuid u) = u ∧ Fuid.with_u128 (Fuid.as_u128 f) = f := by
  constructor
  · cases u
    rfl
  · cases f
    rfl

/-- Claim C8: the conversion used by the `fuid!` macro
(`From<&str>` / `From<String>`, i.e. `with_str(..).unwrap()`) is
fail-fast: on every string `decode` rejects it panics (modelled as `none`)
instead of returning a recoverable error, while the fallible `with_str`
returns the decode error itself for the same input. -/
theorem claim_c8_unwrap_vs_with_str (s : List Nat) (e : DecodeError)
    (h : decode s = Except.error e) :
    Fuid.fromStrUnwrap s = none ∧ Fuid.with_str s = Except.error e := by
  have hw : Fuid.with_str s = Except.error e := by
    simp only [Fuid.with_str, h]
  exact ⟨by simp only [Fuid.fromStrUnwrap, hw], hw⟩

theorem claim_c8_unwrap_vs_with_str_witness :
    Fuid.fromStrUnwrap (strBytes "ab!") = none ∧
    Fuid.with_str (strBytes "ab!") =
      Except.error (DecodeError.InvalidBase62Byte (Char.ofNat 33) 3) :=
  claim_c8_unwrap_vs_with_str (strBytes "ab!") _ (by decide)

/-- Claim C9: `decode` accepts non-canonical leading-zero encodings:
prepending the symbol `'0'` (byte 48) to any successfully decoded string
decodes to the same value, so `decode` is not injective on valid strings
(`"0"` and `"00"` both decode to 0) and `encode (decode "00")` gives
`"0" ≠ "00"`. -/
theorem claim_c9_leading_zero (s : List Nat) (n : Nat)
    (h : decode s = Except.ok n) :
    decode (48 :: s) = Except.ok n ∧
    decode [48, 48] = Except.ok 0 ∧
    decode [48] = decode [48, 48] ∧
    encode 0 = [48] ∧ ([48] : List Nat) ≠ [48, 48] := by
  refine ⟨?_, by decide, by decide, by decide, by decide⟩
  rw [decode] at h
  rw [decode, List.reverse_cons]
  exact decodeLoop_append_48 s.reverse 0 0 s.length (48 :: s).length n
    (by norm_num [U128_LIM]) h

theorem claim_c9_leading_zero_witness :
    decode (48 :: [48]) = Except.ok 0 ∧
    decode [48, 48] = Except.ok 0 ∧
    decode [48] = decode [48, 48] ∧
    encode 0 = [48] ∧ ([48] : List Nat) ≠ [48, 48] :=
  claim_c9_leading_zero [48] 0 (by decide)

/-- Claim C10: `decode` scans UTF-8 bytes, not characters: on the
one-character input `"é"` (UTF-8 bytes `0xC3 0xA9`) the reported symbol is
the trailing byte `0xA9` cast to a char (which is `'©'`, not the original
character `'é'`), and the reported position 2 is counted in bytes from the
start of the string, although the string has only one character. -/
theorem claim_c10_byte_scan :
    strBytes "é" = [195, 169] ∧
    decode (strBytes "é") =
      Except.error (DecodeError.InvalidBase62Byte (Char.ofNat 169) 2) ∧
    ("é").length = 1 ∧
    Char.ofNat 169 ≠ 'é' := by
  decide
